import Mathlib

/-!
Shallow embedding of `src/main.ts` of the dink dependency-vendoring tool
(keroxp/dink), together with theorems settling the frozen claims about its
reconciliation engine.

Modelling conventions:
* A JS object with string keys (`Modules`) is an insertion-ordered association
  list; `Object.entries` iterates it in list order, and `modules[k]` is
  `List.lookup` (JSON-parsed objects have unique keys).
* File-system paths are normalized segment lists (`path.join` followed by the
  normalization Deno's `path` module performs; `.` and empty segments are
  dropped; `..` does not occur in the scenarios covered). `path.dirname` is
  `List.dropLast`, with `[]` standing for the working directory `.`.
* The world state records the vendor file tree, the content of
  `./modules-lock.json` as the `Modules` value written there
  (`JSON.stringify(modules, null, "  ")` is deterministic and injective, so
  byte-identity of the lock file coincides with equality of the stored value),
  and counters of observable effects (fetches, body reads, lock-file writes).
* The platform URL parser (`new URL`) and the network (`fetch`) are external
  collaborators, passed in as functions; `none` models a thrown error /
  transport failure.
* `Promise.all` fan-outs run on one logical thread; they are modelled as a
  sequential fold, a faithful linearization for the interleaving-independent
  facts proved below.
-/

namespace Dink

/-- One manifest / lock entry: a pinned version and the vendored sub-module
paths of one host (source `type Module`, main.ts:7-10). -/
structure Module where
  version : String
  modules : List String
deriving DecidableEq, Repr

/-- A manifest or lock state: insertion-ordered map from host identifier to
`Module` (source `type Modules`, main.ts:11-13). -/
abbrev Modules := List (String × Module)

/-- Result of `new URL(...)`: the components the source destructures
(main.ts:46, 101). -/
structure URLParts where
  protocol : String
  hostname : String
  pathname : String
deriving DecidableEq, Repr

/-- The platform URL parser (`new URL`); `none` models the thrown TypeError on
a malformed URL. -/
abbrev URLParser := String → Option URLParts

/-- A fetch response: status, the `content-length` header (as
`headers.get` returns it, `none` when absent), the body text, and the final
URL after redirects (`resp.url`). -/
structure Response where
  status : Nat
  contentLength : Option String
  body : String
  url : String
deriving DecidableEq, Repr

/-- The network (`fetch` by specifier); `none` models a transport error. -/
abbrev Network := String → Option Response

/-- Errors thrown by the embedded code. `typeError` is the JS TypeError
raised by `Object.entries(undefined)`. -/
inductive DinkError where
  | urlError
  | fetchFailed
  | tooBig
  | networkError
  | typeError
deriving DecidableEq, Repr

/-- The vendor file tree: files (path, content) and explicitly existing
directories, both as normalized segment lists. -/
structure FS where
  files : List (List String × String)
  dirs : List (List String)
deriving DecidableEq, Repr

/-- World state threaded through a run: the file tree, the lock-file content
(`none` = `./modules-lock.json` absent), and effect counters. -/
structure World where
  fs : FS
  lock : Option Modules
  fetches : Nat
  bodyReads : Nat
  lockWrites : Nat
deriving DecidableEq, Repr

/-- JS whitespace class (the ASCII part of `\s`; the added `\t` of the
source's `[\s\t]` is already included). -/
def jsWs (c : Char) : Bool :=
  c = ' ' || c = '\t' || c = '\n' || c = '\r' || c = '\x0b' || c = '\x0c'

/-- Split a character list at every `/` (the char-level `splitOn "/"`). -/
def splitOnSlash : List Char → List (List Char)
  | [] => [[]]
  | c :: cs =>
    let r := splitOnSlash cs
    if c = '/' then [] :: r
    else
      match r with
      | [] => [[c]]
      | seg :: rest => (c :: seg) :: rest

/-- Split a path string into normalized segments: `path.join`'s normalization
drops empty and `.` segments. -/
def splitSegs (s : String) : List String :=
  (((splitOnSlash s.data).map (fun l => String.mk l)).filter (fun x => x ≠ "")).filter
    (fun x => x ≠ ".")

/-- Directory derived from a host URL: `path.join("./vendor", scheme,
hostname, pathname)` (main.ts:47-48, 102-103); `scheme` is the protocol
without its trailing colon. -/
def resolveDir (u : URLParts) : List String :=
  "vendor" :: u.protocol.dropRight 1 :: u.hostname :: splitSegs u.pathname

/-- Target file for one module of a host: `path.join(dir, mod)`
(main.ts:51, 58, 104). -/
def modFilePath (u : URLParts) (mod : String) : List String :=
  resolveDir u ++ splitSegs mod

/-- Helper of `jsSetDedup`: insert each element not already seen, in order. -/
def jsSetDedupAux (seen : List String) : List String → List String
  | [] => []
  | x :: xs =>
    if x ∈ seen then jsSetDedupAux seen xs
    else x :: jsSetDedupAux (x :: seen) xs

/-- JS `Set` built from a list (main.ts:55): keeps the first occurrence of
each element, in insertion order. -/
def jsSetDedup (l : List String) : List String :=
  jsSetDedupAux [] l

/-- Existence check for a file (`fs.exists` on a file path, main.ts:64, 111). -/
def fsExists (fs : FS) (p : List String) : Bool :=
  fs.files.any (fun e => e.1 == p)

/-- Content of a file, if present. -/
def fsRead (fs : FS) (p : List String) : Option String :=
  fs.files.lookup p

/-- Remove a file (`Deno.remove` on a file, main.ts:67). -/
def removeFile (fs : FS) (p : List String) : FS :=
  { fs with files := fs.files.filter (fun e => e.1 != p) }

/-- Remove a directory (`Deno.remove` on a directory, main.ts:70). -/
def removeDir (fs : FS) (d : List String) : FS :=
  { fs with dirs := fs.dirs.filter (fun e => e != d) }

/-- Whether `e` is a direct child path of directory `d`. -/
def isChildOf (d e : List String) : Bool :=
  !e.isEmpty && e.dropLast == d

/-- Whether `readDir(d)` returns an empty listing (main.ts:69): no file and no
directory lies directly inside `d`. -/
def readDirEmpty (fs : FS) (d : List String) : Bool :=
  fs.files.all (fun e => !isChildOf d e.1) && fs.dirs.all (fun e => !isChildOf d e)

/-- All nonempty ancestor paths of `d`, `d` itself included. -/
def ancestorsOf (d : List String) : List (List String) :=
  (List.range d.length).map (fun i => d.take (i + 1))

/-- Insert a directory if it is not already present. -/
def addDir (l : List (List String)) (x : List String) : List (List String) :=
  if x ∈ l then l else x :: l

/-- Recursive directory creation (`Deno.mkdir(modDir, true)`, main.ts:132):
creates every missing ancestor, already-exists is not an error. -/
def mkdirRec (fs : FS) (d : List String) : FS :=
  { fs with dirs := (ancestorsOf d).foldl addDir fs.dirs }

/-- Write a file, fully replacing previous content (`Deno.open(modFile, "w")`
then `Deno.write`, main.ts:133-138). -/
def writeFile (fs : FS) (p : List String) (c : String) : FS :=
  { fs with files := (p, c) :: fs.files.filter (fun e => e.1 != p) }

/-- Helper of `cleanupWalk` on the reversed current directory path:
`path.dirname` drops the last segment of the path, which is the head of the
reversed path, so the loop is structural recursion on the reversed list. -/
def cleanupWalkRev : FS → List String → FS
  | fs, [] => fs
  | fs, d :: ds =>
    if readDirEmpty fs (d :: ds).reverse then
      cleanupWalkRev (removeDir fs (d :: ds).reverse) ds
    else fs

/-- The upward directory-cleanup walk after deleting a file (main.ts:68-72):
`while readDir(dir) empty: remove(dir); dir = dirname(dir)`. At `[]` (the
working directory) the walk is left as-is: in every run the manifest file
makes `.` non-empty, so the loop exits there. -/
def cleanupWalk (fs : FS) (dir : List String) : FS :=
  cleanupWalkRev fs dir.reverse

/-- Deletion of one marked path (main.ts:63-74): skip silently when absent,
otherwise remove the file and run the upward cleanup walk from its parent. -/
def deleteOne (fs : FS) (p : List String) : FS :=
  if fsExists fs p then cleanupWalk (removeFile fs p) p.dropLast else fs

/-- Phase 1 of `deleteRemovedFiles` (main.ts:43-61): walk the lock entries in
order and collect the paths to remove; a lock host absent from the manifest
contributes all its recorded modules, a host present in both contributes the
set difference `lock modules − manifest modules` (via a JS `Set`). `new
URL(k)` throws on a malformed lock key before any deletion happens. -/
def removedFiles (parseURL : URLParser) (modules : Modules) :
    Modules → Except DinkError (List (List String))
  | [] => .ok []
  | (k, v) :: rest =>
    match parseURL k with
    | none => .error .urlError
    | some u =>
      let dir := resolveDir u
      let here :=
        match modules.lookup k with
        | none => v.modules.map (fun i => dir ++ splitSegs i)
        | some m =>
          ((jsSetDedup v.modules).filter (fun i => !m.modules.contains i)).map
            (fun i => dir ++ splitSegs i)
      match removedFiles parseURL modules rest with
      | .error e => .error e
      | .ok later => .ok (here ++ later)

/-- `deleteRemovedFiles(modules, lockFile)` (main.ts:42-76). When the lock
file was absent, `lockFile` is `undefined` and `Object.entries(undefined)`
throws a TypeError. The `Promise.all` deletion fan-out is modelled as a fold
in marking order. -/
def deleteRemovedFilesRun (parseURL : URLParser) (modules : Modules)
    (lockFile : Option Modules) (w : World) : Except (DinkError × World) World :=
  match lockFile with
  | none => .error (.typeError, w)
  | some lock =>
    match removedFiles parseURL modules lock with
    | .error e => .error (e, w)
    | .ok ps => .ok { w with fs := ps.foldl deleteOne w.fs }

/-- JS `parseInt(s)` in radix 10 (main.ts:120): skip leading whitespace, an
optional sign, then the longest digit run; `none` is NaN. -/
def parseIntJS (s : String) : Option Int :=
  let l := s.data.dropWhile jsWs
  let f := fun (sign : Int) (r : List Char) =>
    let ds := r.takeWhile Char.isDigit
    if ds.isEmpty then (none : Option Int)
    else some (sign * (ds.foldl (fun a c => a * 10 + (c.toNat - '0'.toNat)) 0 : Nat))
  match l with
  | '-' :: r => f (-1) r
  | '+' :: r => f 1 r
  | r => f 1 r

/-- JS `>` between a possibly-NaN number and a constant: any comparison with
NaN is false. -/
def jsGt (x : Option Int) (bound : Int) : Bool :=
  match x with
  | none => false
  | some v => bound < v

/-- Strip a literal character-sequence from the front of a list, returning the
rest on success. -/
def stripLit : List Char → List Char → Option (List Char)
  | [], l => some l
  | _ :: _, [] => none
  | c :: cs, x :: xs => if x = c then stripLit cs xs else none

/-- One anchored attempt of the regex `/export[\s\t]*default[\s\t]/`
(main.ts:126): the literal `export`, a run of whitespace (`*`, possibly
empty; greedy skipping is equivalent because `d` is not whitespace), the
literal `default`, then exactly one whitespace character. -/
def matchesAt (l : List Char) : Bool :=
  match stripLit "export".data l with
  | none => false
  | some r =>
    match stripLit "default".data (r.dropWhile jsWs) with
    | none => false
    | some r2 =>
      match r2 with
      | [] => false
      | c :: _ => jsWs c

/-- Search for the pattern anywhere in the list (`String.prototype.match`). -/
def searchFrom : List Char → Bool
  | [] => false
  | l@(_ :: t) => matchesAt l || searchFrom t

/-- `!!code.match(/export[\s\t]*default[\s\t]/)` (main.ts:126). -/
def hasDefaultExport (s : String) : Bool :=
  searchFrom s.data

/-- Shim text generation (main.ts:127-131): always the wildcard re-export;
when the default-export pattern matched, additionally the aliasing default
re-export. -/
def buildLink (respUrl code : String) : String :=
  let link := "export * from \"" ++ respUrl ++ "\";\n"
  if hasDefaultExport code then
    link ++ "import \x7bdefault as dew\x7d from \"" ++ respUrl ++ "\";\n"
      ++ "export default dew;\n"
  else link

/-- The `lockedVersion` computation (main.ts:106-109): the lock's recorded
version when the lock object, the host entry and its version string are all
truthy (a version `""` is falsy), else the manifest version. -/
def lockedVersionOf (lockFile : Option Modules) (host version : String) : String :=
  match lockFile with
  | none => version
  | some l =>
    match l.lookup host with
    | none => version
    | some m => if m.version ≠ "" then m.version else version

/-- One Link Writer invocation (main.ts:90-141) for `mod` of `host`: parse the
host URL, fast-path return when the target exists and the desired version
equals the locked version; otherwise fetch `host ++ version ++ mod`, fail on
non-200, fail on a declared content-length above 10,000,000 before reading the
body, then read the body, build the shim and write it (creating directories).
Errors carry the world at the point of the throw. -/
def writeLinkFile (parseURL : URLParser) (net : Network) (host version : String)
    (lockFile : Option Modules) (w : World) (mod : String) :
    Except (DinkError × World) World :=
  match parseURL host with
  | none => .error (.urlError, w)
  | some u =>
    let modFile := modFilePath u mod
    let modDir := modFile.dropLast
    let lockedVersion := lockedVersionOf lockFile host version
    let specifier := host ++ version ++ mod
    let hasLink := fsExists w.fs modFile
    if hasLink && version == lockedVersion then .ok w
    else
      let w1 := { w with fetches := w.fetches + 1 }
      match net specifier with
      | none => .error (.networkError, w1)
      | some resp =>
        if resp.status ≠ 200 then .error (.fetchFailed, w1)
        else
          let contentLength := parseIntJS (resp.contentLength.getD "0")
          if jsGt contentLength 10000000 then .error (.tooBig, w1)
          else
            let w2 := { w1 with bodyReads := w1.bodyReads + 1 }
            let link := buildLink resp.url resp.body
            .ok { w2 with fs := writeFile (mkdirRec w2.fs modDir) modFile link }

/-- `generateLockFile(modules)` (main.ts:143-146): write the entire manifest
as the new lock-file content. -/
def generateLockFile (modules : Modules) (w : World) : World :=
  { w with lock := some modules, lockWrites := w.lockWrites + 1 }

/-- The per-host `Promise.all` over `v.modules` (main.ts:83-85), modelled as a
sequential fold with fail-fast propagation. -/
def linkAll (parseURL : URLParser) (net : Network) (host version : String)
    (lockFile : Option Modules) : World → List String → Except (DinkError × World) World
  | w, [] => .ok w
  | w, m :: ms =>
    match writeLinkFile parseURL net host version lockFile w m with
    | .error ew => .error ew
    | .ok w2 => linkAll parseURL net host version lockFile w2 ms

/-- The host loop of `ensure` (main.ts:82-87): for each manifest entry, link
all its modules, then call `generateLockFile(modules)` — the lock write sits
inside the loop in the source. -/
def hostsLoop (parseURL : URLParser) (net : Network) (modules : Modules)
    (lockFile : Option Modules) : World → List (String × Module) → Except (DinkError × World) World
  | w, [] => .ok w
  | w, (host, v) :: rest =>
    match linkAll parseURL net host v.version lockFile w v.modules with
    | .error ew => .error ew
    | .ok w2 => hostsLoop parseURL net modules lockFile (generateLockFile modules w2) rest

/-- `ensure(modules)` (main.ts:79-88): read the lock file (`none` when
absent), run `deleteRemovedFiles`, then the host loop. -/
def ensure (parseURL : URLParser) (net : Network) (modules : Modules)
    (w : World) : Except (DinkError × World) World :=
  match deleteRemovedFilesRun parseURL modules w.lock w with
  | .error ew => .error ew
  | .ok w1 => hostsLoop parseURL net modules w.lock w1 modules

/-! The manifest validator `isDinkModules` (main.ts:15-40) runs on the raw
JSON-parsed value, before any typed view exists, so it is embedded over a JS
value type with JS dynamic semantics (`typeof`, `for..in`, property access,
`Array.isArray`). Numbers are modelled as integers; the validator only ever
inspects `typeof` of the values it meets, so the number representation is
irrelevant to it. -/

/-- A parsed JSON / JS value. -/
inductive JSValue where
  | vNull
  | vUndefined
  | vBool (b : Bool)
  | vNum (n : Int)
  | vStr (s : String)
  | vArr (elems : List JSValue)
  | vObj (props : List (String × JSValue))

/-- JS `typeof`: note `typeof null` and `typeof []` are both `"object"`. -/
def typeofJS : JSValue → String
  | .vNull => "object"
  | .vUndefined => "undefined"
  | .vBool _ => "boolean"
  | .vNum _ => "number"
  | .vStr _ => "string"
  | .vArr _ => "object"
  | .vObj _ => "object"

/-- `Array.isArray`. -/
def isArrayJS : JSValue → Bool
  | .vArr _ => true
  | _ => false

/-- Keys visited by `for (const k in x)`: own enumerable keys of an object
(each once), index strings of an array, nothing for `null`/`undefined`.
The validator reaches this only when `typeof x` is `"object"`, so the
string-index case of primitives is irrelevant. The `x.hasOwnProperty(k)`
test (main.ts:21) is true for every such key. -/
def jsKeys : JSValue → List String
  | .vObj props => jsSetDedup (props.map Prod.fst)
  | .vArr es => (List.range es.length).map toString
  | _ => []

/-- Read a string as a decimal array index (the keys produced for arrays by
`for..in` are exactly the canonical decimal index strings). -/
def decimalIndex (s : String) : Option Nat :=
  if s.data ≠ [] ∧ s.data.all Char.isDigit then
    some (s.data.foldl (fun a c => a * 10 + (c.toNat - '0'.toNat)) 0)
  else none

/-- Property access `base[k]`: throws (is `.error`) on `null`/`undefined`
bases, looks up object properties, array indices and `length`, and yields
`undefined` for anything missing (primitives box silently). -/
def getProp : JSValue → String → Except Unit JSValue
  | .vNull, _ => .error ()
  | .vUndefined, _ => .error ()
  | .vObj props, k => .ok ((props.lookup k).getD .vUndefined)
  | .vArr es, k =>
    if k = "length" then .ok (.vNum es.length)
    else
      match decimalIndex k with
      | some i => .ok (es.getD i .vUndefined)
      | none => .ok .vUndefined
  | _, _ => .ok .vUndefined

/-- Scan `m["modules"]`'s elements for the first non-string one
(main.ts:31-36), returning the pushed message if found. -/
def firstBadElemMsg : List JSValue → Option String
  | [] => none
  | e :: es =>
    if typeofJS e ≠ "string" then some "\"content of \"modules\" must be string"
    else firstBadElemMsg es

/-- The per-key body of the validator loop (main.ts:22-36) on the entry value
`m`: the message of the first violated check, `none` if the entry passes,
`.error` when a property access throws (e.g. `m` is `null`). -/
def checkEntry (m : JSValue) : Except Unit (Option String) :=
  match getProp m "version" with
  | .error e => .error e
  | .ok ver =>
    if typeofJS ver ≠ "string" then .ok (some "\"version\" must be string")
    else
      match getProp m "modules" with
      | .error e => .error e
      | .ok mods =>
        if !isArrayJS mods then .ok (some "\"modules\" must be array")
        else
          match mods with
          | .vArr es => .ok (firstBadElemMsg es)
          | _ => .ok none

/-- The `for..in` loop of the validator (main.ts:20-38): stop with `false` and
the single pushed message at the first violating key. -/
def checkKeys (x : JSValue) : List String → Except Unit (Bool × List String)
  | [] => .ok (true, [])
  | k :: ks =>
    match getProp x k with
    | .error e => .error e
    | .ok m =>
      match checkEntry m with
      | .error e => .error e
      | .ok (some msg) => .ok (false, [msg])
      | .ok none => checkKeys x ks

/-- `isDinkModules(x, errors)` (main.ts:15-40): reject a value whose `typeof`
is not `"object"`, then run the per-key checks. The result pairs the returned
boolean with the messages pushed into `errors` (starting from an empty
array, as both call sites do). -/
def isDinkModules (x : JSValue) : Except Unit (Bool × List String) :=
  if typeofJS x ≠ "object" then .ok (false, ["is not object"])
  else checkKeys x (jsKeys x)

/-! Concrete fixtures used by the theorems below: a concrete instance of the
platform URL parser, small manifests, networks and world states. -/

/-- A concrete URL parser covering the hosts used in the fixtures. -/
def demoParseURL : URLParser := fun s =>
  if s = "https://a/" then some ⟨"https:", "a", "/"⟩
  else if s = "https://b/" then some ⟨"https:", "b", "/"⟩
  else if s = "https://h/p" then some ⟨"https:", "h", "/p"⟩
  else none

/-- Manifest entry of host `https://a/`. -/
def demoEntryA : Module := ⟨"v1", ["x.ts"]⟩

/-- Manifest entry of host `https://b/`. -/
def demoEntryB : Module := ⟨"v1", ["y.ts"]⟩

/-- A two-host manifest. -/
def demoManifestAB : Modules := [("https://a/", demoEntryA), ("https://b/", demoEntryB)]

/-- Successful response for `https://a/v1x.ts`. -/
def demoRespA : Response := ⟨200, none, "", "https://a/x.ts"⟩

/-- Successful response for `https://b/v1y.ts`. -/
def demoRespB : Response := ⟨200, none, "", "https://b/y.ts"⟩

/-- A network on which host `a` resolves but host `b` fails with a transport
error. -/
def demoNetC1 : Network := fun s =>
  if s = "https://a/v1x.ts" then some demoRespA else none

/-- A network on which both hosts resolve. -/
def demoNetAB : Network := fun s =>
  if s = "https://a/v1x.ts" then some demoRespA
  else if s = "https://b/v1y.ts" then some demoRespB
  else none

/-- Initial world: only the manifest file on disk, an empty (but present)
lock file. -/
def demoW0 : World := ⟨⟨[(["modules.json"], "")], []⟩, some [], 0, 0, 0⟩

/-- A one-host lock state. -/
def demoLockA : Modules := [("https://a/", demoEntryA)]

/-- World after host `a` was vendored: its shim file on disk, lock recording
it. -/
def demoW2 : World :=
  ⟨⟨[(["vendor","https","a","x.ts"], "c"), (["modules.json"], "")],
    [["vendor"], ["vendor","https"], ["vendor","https","a"]]⟩, some demoLockA, 0, 0, 0⟩

/-- Initial world with no lock file on disk (a first run). -/
def demoW3 : World := ⟨⟨[(["modules.json"], "")], []⟩, none, 0, 0, 0⟩

/-- File tree holding one vendored file of host `https://h/p` plus the
manifest file, with the whole vendor directory chain present. -/
def demoFs6 : FS :=
  ⟨[(["vendor","https","h","p","a.ts"], "s"), (["modules.json"], "")],
   [["vendor"], ["vendor","https"], ["vendor","https","h"], ["vendor","https","h","p"]]⟩

/-- Lock state recording that one vendored file. -/
def demoLock6 : Modules := [("https://h/p", ⟨"1", ["a.ts"]⟩)]

/-- World for the pruning scenario of C6. -/
def demoW6 : World := ⟨demoFs6, some demoLock6, 0, 0, 0⟩

/-- Claim C1 (code bug): the claim demands that a run in which any Link
Writer invocation fails writes no new lock file, and that a successful run
writes it exactly once after all prune and link work. In the code the lock
write sits inside the per-host loop (main.ts:86), so on the two-host manifest
whose second host fails with a network error the failed run has already
rewritten the lock file with the full new manifest, and the successful run on
the same manifest writes the lock file twice, not once. -/
theorem spec_c1 :
    (∃ e w, ensure demoParseURL demoNetC1 demoManifestAB demoW0 = .error (e, w) ∧
      w.lock ≠ demoW0.lock ∧ w.lock = some demoManifestAB ∧ w.lockWrites = 1) ∧
    (∃ w, ensure demoParseURL demoNetAB demoManifestAB demoW0 = .ok w ∧
      w.lockWrites = 2) := by
  constructor
  · exact ⟨.networkError, _, rfl, by decide, by decide, by decide⟩
  · exact ⟨_, rfl, by decide⟩

/-- Claim C2 (code bug): the claim demands that after a successful run the
persisted lock state equals the manifest exactly, in particular for the empty
manifest. Because the lock write sits inside the per-host loop (main.ts:86),
a successful run on the empty manifest performs no lock write at all: the
prior lock state survives on disk unchanged. -/
theorem spec_c2 :
    ∃ w, ensure demoParseURL demoNetC1 ([] : Modules) demoW2 = .ok w ∧
      w.lock = some demoLockA ∧ w.lock ≠ some ([] : Modules) ∧ w.lockWrites = 0 := by
  exact ⟨_, rfl, by decide, by decide, by decide⟩

/-- Claim C3 (code bug): the claim demands that an absent lock file is
treated as an empty lock state and the run completes. In the code
`readLockFile` returns `undefined` when `./modules-lock.json` is absent
(main.ts:148-160) and `deleteRemovedFiles` immediately calls
`Object.entries(lockFile)` (main.ts:44), which throws a TypeError on
`undefined`: every first run aborts before any linking. -/
theorem spec_c3 :
    ensure demoParseURL demoNetAB demoManifestAB demoW3 = .error (.typeError, demoW3) := rfl

/-- Claim C6, counterexample: the vendor root directory `vendor` exists
before pruning, the pruner's upward cleanup walk (main.ts:68-72) has no
vendor-root guard, and after pruning the last vendored file the walk has
deleted the whole chain including `vendor` itself. -/
theorem c6_counterexample :
    ["vendor"] ∈ demoW6.fs.dirs ∧
    ∃ w, deleteRemovedFilesRun demoParseURL [] (some demoLock6) demoW6 = .ok w ∧
      w.fs.dirs = [] := by
  exact ⟨by decide, _, rfl, by decide⟩

/-- Claim C7, counterexample: the claim demands that every non-object
top-level value, null and arrays included, is rejected with an error message.
`typeof null` and `typeof []` are both `"object"` (main.ts:16), so the
validator accepts `null` and the empty array with no error at all. -/
theorem c7_counterexample :
    isDinkModules JSValue.vNull = .ok (true, []) ∧
    isDinkModules (JSValue.vArr []) = .ok (true, []) := ⟨rfl, rfl⟩

/-- A JS `Set` built from a duplicate-free list is that list. -/
lemma jsSetDedupAux_of_nodup (l : List String) : ∀ seen, l.Nodup →
    (∀ x ∈ l, x ∉ seen) → jsSetDedupAux seen l = l := by
  induction l with
  | nil => intro seen _ _; rfl
  | cons x xs ih =>
    intro seen hnd hdis
    have hx : x ∉ seen := hdis x (by simp)
    have hnd' := (List.nodup_cons.mp hnd)
    simp only [jsSetDedupAux, if_neg hx]
    rw [ih (x :: seen) hnd'.2]
    intro y hy
    simp only [List.mem_cons]
    push_neg
    exact ⟨fun h => hnd'.1 (h ▸ hy), hdis y (List.mem_cons_of_mem _ hy)⟩

/-- A JS `Set` built from a duplicate-free list is that list. -/
lemma jsSetDedup_of_nodup (l : List String) (h : l.Nodup) : jsSetDedup l = l :=
  jsSetDedupAux_of_nodup l [] h (by simp)

/-- In an association list with duplicate-free keys, `lookup` of a member
entry's key yields that entry's value. -/
lemma lookup_eq_of_mem_nodup {β : Type} (l : List (String × β))
    (hnd : (l.map Prod.fst).Nodup) (a : String) (b : β) (h : (a, b) ∈ l) :
    l.lookup a = some b := by
  induction l with
  | nil => cases h
  | cons e es ih =>
    obtain ⟨k, v⟩ := e
    rw [List.map_cons, List.nodup_cons] at hnd
    rcases List.mem_cons.mp h with h1 | h1
    · rw [show k = a from (Prod.mk.injEq .. ▸ h1 : _ ∧ _).1.symm] at hnd ⊢
      rw [show v = b from (Prod.mk.injEq .. ▸ h1 : _ ∧ _).2.symm]
      simp [List.lookup]
    · have hne : (a == k) = false := by
        refine beq_eq_false_iff_ne.mpr ?_
        intro hkey
        exact hnd.1 (hkey ▸ (List.mem_map.mpr ⟨(a, b), h1, rfl⟩))
      simp only [List.lookup, hne]
      exact ih hnd.2 h1

/-- Keys whose entries all pass the per-key check are skipped by the
validator loop. -/
lemma checkKeys_append (x : JSValue) (ks1 ks2 : List String)
    (h : ∀ k ∈ ks1, ∃ m, getProp x k = .ok m ∧ checkEntry m = .ok none) :
    checkKeys x (ks1 ++ ks2) = checkKeys x ks2 := by
  induction ks1 with
  | nil => rfl
  | cons k ks ih =>
    obtain ⟨m, hm, hpass⟩ := h k (by simp)
    simp only [List.cons_append, checkKeys, hm, hpass]
    exact ih (fun k' hk' => h k' (by simp [hk']))

/-- The element scan reports the first non-string element. -/
lemma firstBadElemMsg_append (es1 : List JSValue) (bad : JSValue) (es2 : List JSValue)
    (h1 : ∀ e ∈ es1, typeofJS e = "string") (hb : typeofJS bad ≠ "string") :
    firstBadElemMsg (es1 ++ bad :: es2) =
      some "\"content of \"modules\" must be string" := by
  induction es1 with
  | nil => simp [firstBadElemMsg, hb]
  | cons e es ih =>
    have he : typeofJS e = "string" := h1 e (by simp)
    simp only [List.cons_append, firstBadElemMsg, he]
    simpa using ih (fun e' he' => h1 e' (by simp [he']))

/-- The element scan passes a list of strings. -/
lemma firstBadElemMsg_none (es : List JSValue)
    (h : ∀ e ∈ es, typeofJS e = "string") : firstBadElemMsg es = none := by
  induction es with
  | nil => rfl
  | cons e es ih =>
    have he : typeofJS e = "string" := h e (by simp)
    simp only [firstBadElemMsg, he]
    simpa using ih (fun e' he' => h e' (by simp [he']))

/-- Claim C7 (amended): every top-level value whose `typeof` is not
`"object"` is rejected with the message `is not object`; `null` and arrays
have `typeof` `"object"` and are not rejected at top level (see the
counterexample); the empty manifest is accepted; per key, an entry with a
non-string `version`, a non-array `modules`, or a non-string `modules`
element is rejected with the corresponding single message, stopping at the
first violation, and an object all of whose entries pass is accepted. -/
theorem spec_c7 :
    (∀ x, typeofJS x ≠ "object" → isDinkModules x = .ok (false, ["is not object"])) ∧
    isDinkModules (.vObj []) = .ok (true, []) ∧
    (∀ m ver, getProp m "version" = .ok ver → typeofJS ver ≠ "string" →
      checkEntry m = .ok (some "\"version\" must be string")) ∧
    (∀ m ver mods, getProp m "version" = .ok ver → typeofJS ver = "string" →
      getProp m "modules" = .ok mods → isArrayJS mods = false →
      checkEntry m = .ok (some "\"modules\" must be array")) ∧
    (∀ m ver es1 bad es2, getProp m "version" = .ok ver → typeofJS ver = "string" →
      getProp m "modules" = .ok (.vArr (es1 ++ bad :: es2)) →
      (∀ e ∈ es1, typeofJS e = "string") → typeofJS bad ≠ "string" →
      checkEntry m = .ok (some "\"content of \"modules\" must be string")) ∧
    (∀ m ver es, getProp m "version" = .ok ver → typeofJS ver = "string" →
      getProp m "modules" = .ok (.vArr es) → (∀ e ∈ es, typeofJS e = "string") →
      checkEntry m = .ok none) ∧
    (∀ pre k m post msg, ((pre ++ (k, m) :: post).map Prod.fst).Nodup →
      (∀ p ∈ pre, checkEntry p.2 = .ok none) → checkEntry m = .ok (some msg) →
      isDinkModules (.vObj (pre ++ (k, m) :: post)) = .ok (false, [msg])) ∧
    (∀ props, (props.map Prod.fst).Nodup →
      (∀ p ∈ props, checkEntry p.2 = .ok none) →
      isDinkModules (.vObj props) = .ok (true, [])) := by
  refine ⟨?ta, rfl, ?tc, ?td, ?te, ?tf, ?tg, ?th⟩
  case ta =>
    intro x hx
    simp [isDinkModules, hx]
  case tc =>
    intro m ver hver htype
    simp [checkEntry, hver, htype]
  case td =>
    intro m ver mods hver htype hmods harr
    simp [checkEntry, hver, htype, hmods, harr]
  case te =>
    intro m ver es1 bad es2 hver htype hmods h1 hbad
    simp [checkEntry, hver, htype, hmods, isArrayJS,
      firstBadElemMsg_append es1 bad es2 h1 hbad]
  case tf =>
    intro m ver es hver htype hmods hall
    simp [checkEntry, hver, htype, hmods, isArrayJS, firstBadElemMsg_none es hall]
  case tg =>
    intro pre k m post msg hnd hpre hfail
    have hobj : typeofJS (.vObj (pre ++ (k, m) :: post)) = "object" := rfl
    simp only [isDinkModules, hobj, ne_eq, not_true_eq_false, if_false, jsKeys]
    rw [jsSetDedup_of_nodup _ hnd, List.map_append]
    rw [checkKeys_append _ _ _ ?hpass]
    case hpass =>
      intro k' hk'
      obtain ⟨p, hp, hpk⟩ := List.mem_map.mp hk'
      refine ⟨p.2, ?_, hpre p hp⟩
      have hmem : (k', p.2) ∈ pre ++ (k, m) :: post := by
        rw [← hpk]
        exact List.mem_append_left _ hp
      simp only [getProp]
      rw [lookup_eq_of_mem_nodup _ hnd k' p.2 hmem]
      rfl
    have hlook : (pre ++ (k, m) :: post).lookup k = some m :=
      lookup_eq_of_mem_nodup _ hnd k m (by simp)
    simp only [List.map_cons, checkKeys, getProp, hlook, Option.getD_some, hfail]
  case th =>
    intro props hnd hpass
    have hobj : typeofJS (.vObj props) = "object" := rfl
    simp only [isDinkModules, hobj, ne_eq, not_true_eq_false, if_false, jsKeys]
    rw [jsSetDedup_of_nodup _ hnd]
    have := checkKeys_append (.vObj props) (props.map Prod.fst) [] ?hpass2
    case hpass2 =>
      intro k' hk'
      obtain ⟨p, hp, hpk⟩ := List.mem_map.mp hk'
      refine ⟨p.2, ?_, hpass p hp⟩
      have hmem : (k', p.2) ∈ props := by
        rw [← hpk]; exact hp
      simp only [getProp]
      rw [lookup_eq_of_mem_nodup _ hnd k' p.2 hmem]
      rfl
    simpa using this

/-- Witness for C7's amended theorem: a string is rejected as a non-object,
and a one-host object whose entry lacks a string version is rejected with
the version message. -/
theorem spec_c7_witness :
    isDinkModules (.vStr "x") = .ok (false, ["is not object"]) ∧
    isDinkModules (.vObj [("https://a/", .vNum 3)]) =
      .ok (false, ["\"version\" must be string"]) := by
  constructor
  · exact spec_c7.1 (.vStr "x") (by decide)
  · exact spec_c7.2.2.2.2.2.2.1 [] "https://a/" (.vNum 3) [] _ (by simp)
      (by simp) (spec_c7.2.2.1 (.vNum 3) .vUndefined rfl (by decide))

/-- Membership in the JS-`Set` dedup helper. -/
lemma mem_jsSetDedupAux (l : List String) : ∀ seen x,
    x ∈ jsSetDedupAux seen l ↔ (x ∈ l ∧ x ∉ seen) := by
  induction l with
  | nil => intro seen x; simp [jsSetDedupAux]
  | cons y ys ih =>
    intro seen x
    by_cases hy : y ∈ seen
    · simp only [jsSetDedupAux, if_pos hy, ih, List.mem_cons]
      constructor
      · exact fun ⟨h1, h2⟩ => ⟨Or.inr h1, h2⟩
      · rintro ⟨h1 | h1, h2⟩
        · exact absurd (h1 ▸ hy) h2
        · exact ⟨h1, h2⟩
    · simp only [jsSetDedupAux, if_neg hy, List.mem_cons, ih]
      constructor
      · rintro (h1 | ⟨h1, h2⟩)
        · exact ⟨Or.inl h1, h1 ▸ hy⟩
        · exact ⟨Or.inr h1, fun hc => h2 (Or.inr hc)⟩
      · rintro ⟨h1 | h1, h2⟩
        · exact Or.inl h1
        · by_cases hxy : x = y
          · exact Or.inl hxy
          · exact Or.inr ⟨h1, fun hc => hc.elim hxy h2⟩

/-- A JS `Set` has the same elements as the list it was built from. -/
lemma mem_jsSetDedup (l : List String) (x : String) :
    x ∈ jsSetDedup l ↔ x ∈ l := by
  simp [jsSetDedup, mem_jsSetDedupAux]

/-- Two manifests with the same hosts and the same module lists, differing
at most in version strings. -/
def sameShape (a b : Modules) : Prop :=
  a.map (fun e => (e.1, e.2.modules)) = b.map (fun e => (e.1, e.2.modules))

/-- Under `sameShape`, lookups agree up to the version field. -/
lemma lookup_map_modules (a : Modules) : ∀ b : Modules, sameShape a b →
    ∀ k, (a.lookup k).map Module.modules = (b.lookup k).map Module.modules := by
  induction a with
  | nil =>
    intro b h k
    cases b with
    | nil => rfl
    | cons e es => exact absurd h (by simp [sameShape])
  | cons e es ih =>
    intro b h k
    cases b with
    | nil => exact absurd h (by simp [sameShape])
    | cons e2 es2 =>
      obtain ⟨k1, v1⟩ := e
      obtain ⟨k2, v2⟩ := e2
      simp only [sameShape, List.map_cons, List.cons.injEq, Prod.mk.injEq] at h
      obtain ⟨⟨hk, hm⟩, htail⟩ := h
      subst hk
      by_cases hkk : k = k1
      · subst hkk
        simp [List.lookup, hm]
      · have hne : (k == k1) = false := beq_eq_false_iff_ne.mpr hkk
        simp only [List.lookup, hne]
        exact ih es2 htail k

/-- Phase 1 of the Pruner only reads the host keys and module lists: version
strings in the manifest and in the lock state never change its result. -/
lemma removedFiles_sameShape (parseURL : URLParser) (modules modules2 : Modules)
    (hm : sameShape modules modules2) : ∀ lock lock2 : Modules, sameShape lock lock2 →
    removedFiles parseURL modules2 lock2 = removedFiles parseURL modules lock := by
  intro lock
  induction lock with
  | nil =>
    intro lock2 hl
    cases lock2 with
    | nil => rfl
    | cons e es => exact absurd hl (fun hcon => by simp [sameShape] at hcon)
  | cons e rest ih =>
    intro lock2 hl
    cases lock2 with
    | nil => exact absurd hl (fun hcon => by simp [sameShape] at hcon)
    | cons e2 rest2 =>
      obtain ⟨k, v⟩ := e
      obtain ⟨k2, v2⟩ := e2
      simp only [sameShape, List.map_cons, List.cons.injEq, Prod.mk.injEq] at hl
      obtain ⟨⟨hk, hmods⟩, htail⟩ := hl
      subst hk
      have hlook := lookup_map_modules modules modules2 hm k
      simp only [removedFiles]
      rw [ih rest2 htail]
      cases hcase : modules.lookup k with
      | none =>
        rw [hcase] at hlook
        cases hcase2 : modules2.lookup k with
        | none => rw [← hmods]
        | some m2 => rw [hcase2] at hlook; exact absurd hlook (by simp)
      | some m =>
        rw [hcase] at hlook
        cases hcase2 : modules2.lookup k with
        | none => rw [hcase2] at hlook; exact absurd hlook (by simp)
        | some m2 =>
          rw [hcase2] at hlook
          have hmm : m.modules = m2.modules := by simpa using hlook
          rw [← hmods]
          simp only [hmm]

/-- Claim C5: given a manifest and a lock state (every lock host being a
parseable URL), phase 1 of the Pruner succeeds, and the list of file paths it
marks for deletion contains exactly the resolved paths of lock-recorded
modules whose host is absent from the manifest, together with those of
lock-recorded modules absent from the module list of their host's manifest
entry — in particular a version difference alone marks nothing: the marked
list is unchanged under any change of version strings in the manifest, the
lock state, or both. -/
theorem spec_c5 (parseURL : URLParser) (modules lock : Modules)
    (hparse : ∀ k ∈ lock.map Prod.fst, (parseURL k).isSome) :
    ∃ ps, removedFiles parseURL modules lock = .ok ps ∧
      (∀ p, p ∈ ps ↔ ∃ k v, (k, v) ∈ lock ∧ ∃ u, parseURL k = some u ∧
        ∃ i, i ∈ v.modules ∧ p = resolveDir u ++ splitSegs i ∧
          ∀ m, modules.lookup k = some m → i ∉ m.modules) ∧
      (∀ modules2 lock2, sameShape modules modules2 → sameShape lock lock2 →
        removedFiles parseURL modules2 lock2 = .ok ps) := by
  have hmain : ∃ ps, removedFiles parseURL modules lock = .ok ps ∧
      (∀ p, p ∈ ps ↔ ∃ k v, (k, v) ∈ lock ∧ ∃ u, parseURL k = some u ∧
        ∃ i, i ∈ v.modules ∧ p = resolveDir u ++ splitSegs i ∧
          ∀ m, modules.lookup k = some m → i ∉ m.modules) := by
    induction lock with
    | nil => exact ⟨[], rfl, by simp [removedFiles]⟩
    | cons e rest ih =>
      obtain ⟨k, v⟩ := e
      obtain ⟨u, hu⟩ := Option.isSome_iff_exists.mp (hparse k (by simp))
      obtain ⟨ps', hok', hmem'⟩ := ih (fun k' hk' => hparse k' (by simp [hk']))
      have htail : ∀ p, p ∈ ps' →
          ∃ k0 v0, (k0, v0) ∈ (k, v) :: rest ∧ ∃ u0, parseURL k0 = some u0 ∧
            ∃ i, i ∈ v0.modules ∧ p = resolveDir u0 ++ splitSegs i ∧
              ∀ m, modules.lookup k0 = some m → i ∉ m.modules := by
        intro p hp
        obtain ⟨k0, v0, hin, rest0⟩ := (hmem' p).mp hp
        exact ⟨k0, v0, List.mem_cons_of_mem _ hin, rest0⟩
      have hInHead : ∀ (here : List (List String)) p,
          (p ∈ here ↔ ∃ i, i ∈ v.modules ∧ p = resolveDir u ++ splitSegs i ∧
            ∀ m, modules.lookup k = some m → i ∉ m.modules) →
          (p ∈ here ++ ps' ↔ ∃ k0 v0, (k0, v0) ∈ (k, v) :: rest ∧
            ∃ u0, parseURL k0 = some u0 ∧ ∃ i, i ∈ v0.modules ∧
              p = resolveDir u0 ++ splitSegs i ∧
              ∀ m, modules.lookup k0 = some m → i ∉ m.modules) := by
        intro here p hchar
        rw [List.mem_append, hchar]
        constructor
        · rintro (⟨i, hi, hp, hcond⟩ | hp)
          · exact ⟨k, v, List.mem_cons_self .., u, hu, i, hi, hp, hcond⟩
          · exact htail p hp
        · rintro ⟨k0, v0, hin, u0, hu0, i, hi, hp, hcond⟩
          rcases List.mem_cons.mp hin with heq | hin'
          · obtain ⟨hk0, hv0⟩ := Prod.mk.injEq .. ▸ heq
            subst hk0; subst hv0
            rw [hu0] at hu
            exact Or.inl ⟨i, hi, (Option.some.injEq .. ▸ hu) ▸ hp, hcond⟩
          · exact Or.inr ((hmem' p).mpr ⟨k0, v0, hin', u0, hu0, i, hi, hp, hcond⟩)
      cases hcase : modules.lookup k with
      | none =>
        refine ⟨v.modules.map (fun i => resolveDir u ++ splitSegs i) ++ ps',
          by simp only [removedFiles, hu, hcase, hok'], ?_⟩
        intro p
        refine hInHead _ p ?_
        simp only [List.mem_map]
        constructor
        · rintro ⟨i, hi, hp⟩
          refine ⟨i, hi, hp.symm, ?_⟩
          intro m hm
          rw [hcase] at hm
          cases hm
        · rintro ⟨i, hi, hp, _⟩
          exact ⟨i, hi, hp.symm⟩
      | some m =>
        refine ⟨((jsSetDedup v.modules).filter (fun i => !m.modules.contains i)).map
            (fun i => resolveDir u ++ splitSegs i) ++ ps',
          by simp only [removedFiles, hu, hcase, hok'], ?_⟩
        intro p
        refine hInHead _ p ?_
        simp only [List.mem_map, List.mem_filter, mem_jsSetDedup]
        constructor
        · rintro ⟨i, ⟨hi, hnc⟩, hp⟩
          refine ⟨i, hi, hp.symm, ?_⟩
          intro m' hm'
          rw [hcase] at hm'
          cases hm'
          simpa using hnc
        · rintro ⟨i, hi, hp, hcond⟩
          refine ⟨i, ⟨hi, by simpa using hcond m hcase⟩, hp.symm⟩
  obtain ⟨ps, hok, hmem⟩ := hmain
  refine ⟨ps, hok, hmem, ?_⟩
  intro modules2 lock2 hm hl
  rw [removedFiles_sameShape parseURL modules modules2 hm lock lock2 hl, hok]

/-- Witness for C5: on the concrete one-host lock state with the empty
manifest, phase 1 succeeds and marks the recorded module's resolved path. -/
theorem spec_c5_witness :
    ∃ ps, removedFiles demoParseURL ([] : Modules) demoLock6 = .ok ps ∧
      ["vendor", "https", "h", "p", "a.ts"] ∈ ps := by
  obtain ⟨ps, hok, hmem, _⟩ := spec_c5 demoParseURL [] demoLock6 (by decide)
  refine ⟨ps, hok, ?_⟩
  refine (hmem _).mpr ⟨"https://h/p", ⟨"1", ["a.ts"]⟩, by simp [demoLock6],
    ⟨"https:", "h", "/p"⟩, by decide, "a.ts", by simp, by decide, ?_⟩
  intro m hm
  simp at hm

/-- The cleanup walk never touches files. -/
lemma cleanupWalkRev_files : ∀ (r : List String) (fs : FS),
    (cleanupWalkRev fs r).files = fs.files := by
  intro r
  induction r with
  | nil => intro fs; rfl
  | cons x xs ih =>
    intro fs
    by_cases h : readDirEmpty fs (x :: xs).reverse = true
    · simp only [cleanupWalkRev, h, if_true]
      rw [ih]
      rfl
    · simp only [cleanupWalkRev, h, Bool.false_eq_true, if_false]

/-- The cleanup walk only removes directories, never adds any. -/
lemma cleanupWalkRev_dirs_subset : ∀ (r : List String) (fs : FS) (d : List String),
    d ∈ (cleanupWalkRev fs r).dirs → d ∈ fs.dirs := by
  intro r
  induction r with
  | nil => intro fs d h; exact h
  | cons x xs ih =>
    intro fs d h
    by_cases hc : readDirEmpty fs (x :: xs).reverse = true
    · simp only [cleanupWalkRev, hc, if_true] at h
      have := ih _ _ h
      simp only [removeDir, List.mem_filter] at this
      exact this.1
    · simpa only [cleanupWalkRev, hc, if_false] using h

/-- A removed directory is gone from the directory set. -/
lemma removeDir_self (fs : FS) (d : List String) : d ∉ (removeDir fs d).dirs := by
  intro h
  simp only [removeDir, List.mem_filter, bne_self_eq_false] at h
  exact absurd h.2 (by simp)

/-- Every directory the walk removes is an ancestor (on the reversed path). -/
lemma cleanupWalkRev_removed_ancestor : ∀ (r : List String) (fs : FS) (d : List String),
    d ∈ fs.dirs → d ∉ (cleanupWalkRev fs r).dirs → ∃ t, d ++ t = r.reverse := by
  intro r
  induction r with
  | nil => intro fs d hin hout; exact absurd hin hout
  | cons x xs ih =>
    intro fs d hin hout
    by_cases hc : readDirEmpty fs (x :: xs).reverse = true
    · rw [show cleanupWalkRev fs (x :: xs) =
        cleanupWalkRev (removeDir fs (x :: xs).reverse) xs by
          simp only [cleanupWalkRev, hc, if_true]] at hout
      by_cases hd : d ∈ (removeDir fs (x :: xs).reverse).dirs
      · obtain ⟨t, ht⟩ := ih _ d hd hout
        refine ⟨t ++ [x], ?_⟩
        rw [List.reverse_cons, ← ht, List.append_assoc]
      · have : d = (x :: xs).reverse := by
          by_contra hne
          refine hd ?_
          simp only [removeDir, List.mem_filter]
          exact ⟨hin, by simpa using hne⟩
        exact ⟨[], by simpa using this⟩
    · rw [show cleanupWalkRev fs (x :: xs) = fs by
        simp only [cleanupWalkRev, hc, Bool.false_eq_true, if_false]] at hout
      exact absurd hin hout

/-- Claim C6 (amended): after the Pruner deletes a file, the upward cleanup
walk (1) never removes or adds files, (2) only ever removes directories,
(3) stops immediately at a non-empty starting directory, (4) removes the
starting directory when it is empty, and (5) removes only ancestors of the
starting directory. There is no vendor-root guard: as the counterexample
shows, the `vendor` root itself is removed once it becomes empty (the walk
stops at the working directory `.` only because the manifest file keeps it
non-empty). -/
theorem spec_c6 (fs : FS) (dir : List String) :
    (cleanupWalk fs dir).files = fs.files ∧
    (∀ d, d ∈ (cleanupWalk fs dir).dirs → d ∈ fs.dirs) ∧
    (dir ≠ [] → readDirEmpty fs dir = false → cleanupWalk fs dir = fs) ∧
    (dir ≠ [] → readDirEmpty fs dir = true → dir ∉ (cleanupWalk fs dir).dirs) ∧
    (∀ d, d ∈ fs.dirs → d ∉ (cleanupWalk fs dir).dirs → ∃ t, d ++ t = dir) := by
  refine ⟨cleanupWalkRev_files dir.reverse fs,
    fun d h => cleanupWalkRev_dirs_subset dir.reverse fs d h, ?_, ?_, ?_⟩
  · intro hne hempty
    cases hrev : dir.reverse with
    | nil => exact absurd (by simpa using hrev) hne
    | cons x xs =>
      have hback : (x :: xs).reverse = dir := by
        rw [← hrev, List.reverse_reverse]
      unfold cleanupWalk
      rw [hrev]
      simp only [cleanupWalkRev, hback, hempty, Bool.false_eq_true, if_false]
  · intro hne hempty
    cases hrev : dir.reverse with
    | nil => exact absurd (by simpa using hrev) hne
    | cons x xs =>
      have hback : (x :: xs).reverse = dir := by
        rw [← hrev, List.reverse_reverse]
      unfold cleanupWalk
      rw [hrev]
      simp only [cleanupWalkRev, hback, hempty, if_true]
      intro hmem
      exact removeDir_self fs dir (cleanupWalkRev_dirs_subset xs _ dir hmem)
  · intro d hin hout
    obtain ⟨t, ht⟩ := cleanupWalkRev_removed_ancestor dir.reverse fs d hin hout
    exact ⟨t, by simpa using ht⟩

/-- Witness for C6's amended theorem: in the concrete tree the directory
holding `a.ts` is non-empty, so the walk leaves the file system untouched. -/
theorem spec_c6_witness :
    cleanupWalk demoFs6 ["vendor", "https", "h", "p"] = demoFs6 :=
  (spec_c6 demoFs6 ["vendor", "https", "h", "p"]).2.2.1 (by decide) (by decide)

/-- Declarative reading of the default-export pattern of main.ts:126: the
text contains `export`, a run of whitespace (possibly empty, as the regex
uses `*`), `default`, and one whitespace character, in sequence. -/
def containsExportDefault (s : String) : Prop :=
  ∃ a ws w b, s.data = a ++ "export".data ++ ws ++ "default".data ++ w :: b ∧
    (∀ c ∈ ws, jsWs c = true) ∧ jsWs w = true

/-- Stripping a literal succeeds exactly on lists that extend it. -/
lemma stripLit_eq_some : ∀ (p l r : List Char), stripLit p l = some r ↔ l = p ++ r := by
  intro p
  induction p with
  | nil => intro l r; simp [stripLit]
  | cons c cs ih =>
    intro l r
    cases l with
    | nil => simp [stripLit]
    | cons x xs =>
      by_cases hx : x = c
      · subst hx
        simp [stripLit, ih]
      · simp [stripLit, hx]

/-- Dropping whitespace skips over an all-whitespace block. -/
lemma dropWhile_all_append (p : Char → Bool) : ∀ (ws l : List Char),
    (∀ c ∈ ws, p c = true) → (ws ++ l).dropWhile p = l.dropWhile p := by
  intro ws
  induction ws with
  | nil => intro l _; rfl
  | cons c cs ih =>
    intro l h
    have hc : p c = true := h c (by simp)
    simp only [List.cons_append, List.dropWhile_cons, hc, if_true]
    exact ih l (fun c' hc' => h c' (by simp [hc']))

/-- One anchored regex attempt succeeds exactly on lists that start with the
pattern. -/
lemma matchesAt_iff (l : List Char) : matchesAt l = true ↔
    ∃ ws w b, l = "export".data ++ ws ++ "default".data ++ w :: b ∧
      (∀ c ∈ ws, jsWs c = true) ∧ jsWs w = true := by
  constructor
  · intro h
    cases hstrip : stripLit "export".data l with
    | none =>
      simp only [matchesAt, hstrip] at h
      exact absurd h (by decide)
    | some r =>
      cases hstrip2 : stripLit "default".data (r.dropWhile jsWs) with
      | none =>
        simp only [matchesAt, hstrip, hstrip2] at h
        exact absurd h (by decide)
      | some r2 =>
        cases r2 with
        | nil =>
          simp only [matchesAt, hstrip, hstrip2] at h
          exact absurd h (by decide)
        | cons w b =>
          simp only [matchesAt, hstrip, hstrip2] at h
          refine ⟨r.takeWhile jsWs, w, b, ?_, ?_, h⟩
          · have hr : l = "export".data ++ r := (stripLit_eq_some _ _ _).mp hstrip
            have hr2 : r.dropWhile jsWs = "default".data ++ w :: b :=
              (stripLit_eq_some _ _ _).mp hstrip2
            have hsplit : r = r.takeWhile jsWs ++ r.dropWhile jsWs :=
              (List.takeWhile_append_dropWhile ..).symm
            rw [hr]
            conv_lhs => rw [hsplit]
            rw [hr2]
            simp [List.append_assoc]
          · intro c hc
            exact List.mem_takeWhile_imp hc
  · rintro ⟨ws, w, b, heq, hws, hw⟩
    subst heq
    have h1 : stripLit "export".data
        ("export".data ++ ws ++ "default".data ++ w :: b) =
        some (ws ++ "default".data ++ w :: b) :=
      (stripLit_eq_some _ _ _).mpr (by simp [List.append_assoc])
    have hd : "default".data = 'd' :: "efault".data := rfl
    have h2 : (ws ++ "default".data ++ w :: b).dropWhile jsWs =
        "default".data ++ w :: b := by
      rw [List.append_assoc, dropWhile_all_append jsWs ws _ hws, hd, List.cons_append]
      rw [List.dropWhile_cons]
      simp only [show jsWs 'd' = false from rfl, Bool.false_eq_true, if_false]
    have h3 : stripLit "default".data ("default".data ++ w :: b) = some (w :: b) :=
      (stripLit_eq_some _ _ _).mpr rfl
    simp only [matchesAt, h1, h2, h3]
    exact hw

/-- The unanchored search succeeds exactly when some suffix matches. -/
lemma searchFrom_iff : ∀ l : List Char, searchFrom l = true ↔
    ∃ a rest, l = a ++ rest ∧ matchesAt rest = true := by
  intro l
  induction l with
  | nil =>
    simp only [searchFrom, Bool.false_eq_true, false_iff]
    rintro ⟨a, rest, heq, hm⟩
    have hrest : rest = [] := (List.nil_eq_append_iff.mp heq).2
    rw [hrest] at hm
    cases hm
  | cons x t ih =>
    simp only [searchFrom, Bool.or_eq_true, ih]
    constructor
    · rintro (h | ⟨a, rest, heq, hm⟩)
      · exact ⟨[], x :: t, rfl, h⟩
      · exact ⟨x :: a, rest, by simp [heq], hm⟩
    · rintro ⟨a, rest, heq, hm⟩
      cases a with
      | nil => exact Or.inl (by rw [show x :: t = rest from by simpa using heq]; exact hm)
      | cons a0 as =>
        have h2 : t = as ++ rest := by
          simp only [List.cons_append, List.cons.injEq] at heq
          exact heq.2
        exact Or.inr ⟨as, rest, h2, hm⟩

/-- The source's regex test agrees with the declarative pattern. -/
lemma hasDefaultExport_iff (s : String) :
    hasDefaultExport s = true ↔ containsExportDefault s := by
  unfold hasDefaultExport containsExportDefault
  rw [searchFrom_iff]
  constructor
  · rintro ⟨a, rest, heq, hm⟩
    obtain ⟨ws, w, b, hrest, hws, hw⟩ := (matchesAt_iff rest).mp hm
    exact ⟨a, ws, w, b, by rw [heq, hrest]; simp [List.append_assoc], hws, hw⟩
  · rintro ⟨a, ws, w, b, heq, hws, hw⟩
    exact ⟨a, "export".data ++ ws ++ "default".data ++ w :: b,
      by rw [heq]; simp [List.append_assoc],
      (matchesAt_iff _).mpr ⟨ws, w, b, rfl, hws, hw⟩⟩

/-- Claim C8: when the fetched source contains the textual pattern `export`,
whitespace-run, `default`, whitespace, the generated shim is the wildcard
re-export line followed by the aliasing default re-export; when it does not,
the shim is exactly the wildcard re-export line. -/
theorem spec_c8 (url code : String) :
    (containsExportDefault code → buildLink url code =
      "export * from \"" ++ url ++ "\";\n" ++
      "import \x7bdefault as dew\x7d from \"" ++ url ++ "\";\n" ++
      "export default dew;\n") ∧
    (¬containsExportDefault code → buildLink url code =
      "export * from \"" ++ url ++ "\";\n") := by
  constructor
  · intro h
    have hb : hasDefaultExport code = true := (hasDefaultExport_iff code).mpr h
    simp [buildLink, hb, String.append_assoc]
  · intro h
    have hb : hasDefaultExport code = false := by
      cases hcase : hasDefaultExport code with
      | false => rfl
      | true => exact absurd ((hasDefaultExport_iff code).mp hcase) h
    simp [buildLink, hb]

/-- Witness for C8: a source with `export default x` gets both lines, a
source without the pattern gets only the wildcard line. -/
theorem spec_c8_witness :
    buildLink "u" "export default x" =
      "export * from \"u\";\n" ++ "import \x7bdefault as dew\x7d from \"u\";\n" ++
      "export default dew;\n" ∧
    buildLink "u" "const y = 1" = "export * from \"u\";\n" := by
  constructor
  · have h := (spec_c8 "u" "export default x").1
      ((hasDefaultExport_iff "export default x").mp (by decide))
    simpa using h
  · exact (spec_c8 "u" "const y = 1").2
      (fun hc => absurd ((hasDefaultExport_iff "const y = 1").mpr hc) (by decide))

/-- Claim C9: when the Link Writer reaches the fetch (the fast path does not
apply) and the response declares a numeric content-length strictly above
10,000,000, the invocation raises an error before reading the body: the body
read counter and the file tree are unchanged (no shim is written). The same
holds when the status is not 200, in which case the error comes even
earlier. -/
theorem spec_c9 (parseURL : URLParser) (net : Network) (host version : String)
    (lockFile : Option Modules) (w : World) (mod : String) (u : URLParts)
    (resp : Response) (n : Int)
    (hu : parseURL host = some u)
    (hnofast : ¬(fsExists w.fs (modFilePath u mod) = true ∧
      version = lockedVersionOf lockFile host version))
    (hnet : net (host ++ version ++ mod) = some resp)
    (hlen : parseIntJS (resp.contentLength.getD "0") = some n)
    (hbig : 10000000 < n) :
    ∃ e w2, writeLinkFile parseURL net host version lockFile w mod = .error (e, w2) ∧
      w2.bodyReads = w.bodyReads ∧ w2.fs = w.fs := by
  have hcond : ¬(fsExists w.fs (modFilePath u mod) &&
      (version == lockedVersionOf lockFile host version)) = true := by
    simpa [Bool.and_eq_true, beq_iff_eq] using hnofast
  by_cases hs : resp.status = 200
  · have hgt : jsGt (parseIntJS (resp.contentLength.getD "0")) 10000000 = true := by
      rw [hlen]
      simpa [jsGt] using hbig
    refine ⟨.tooBig, { w with fetches := w.fetches + 1 }, ?_, rfl, rfl⟩
    simp only [writeLinkFile, hu, if_neg hcond, hnet, hs, hgt, ne_eq,
      not_true_eq_false, if_false, if_true]
  · refine ⟨.fetchFailed, { w with fetches := w.fetches + 1 }, ?_, rfl, rfl⟩
    simp only [writeLinkFile, hu, if_neg hcond, hnet, ne_eq, hs,
      not_false_eq_true, if_true]

/-- Witness fixture for C9: a response declaring content-length 10000001. -/
def demoRespBig : Response := ⟨200, some "10000001", "", "https://a/x.ts"⟩

/-- Witness fixture for C9: a network serving the oversized response. -/
def demoNetBig : Network := fun s =>
  if s = "https://a/v1x.ts" then some demoRespBig else none

/-- Witness for C9: on the oversized response the invocation fails and the
file tree is untouched. -/
theorem spec_c9_witness :
    ∃ e w2, writeLinkFile demoParseURL demoNetBig "https://a/" "v1" (some [])
      demoW0 "x.ts" = .error (e, w2) ∧
      w2.bodyReads = demoW0.bodyReads ∧ w2.fs = demoW0.fs :=
  spec_c9 demoParseURL demoNetBig "https://a/" "v1" (some []) demoW0 "x.ts"
    ⟨"https:", "a", "/"⟩ demoRespBig 10000001 rfl (by decide) rfl (by decide)
    (by decide)

/-- Claim C10: when the fetch is reached with a 200 response whose
content-length header is absent or non-numeric, the size guard passes no
matter how large the actual body is: the body is read (the counter grows by
one) and the shim is written for the module, with the shim text generated
from the final URL and the body. The 10,000,000 ceiling is never enforced
against the actual body. -/
theorem spec_c10 (parseURL : URLParser) (net : Network) (host version : String)
    (lockFile : Option Modules) (w : World) (mod : String) (u : URLParts)
    (resp : Response)
    (hu : parseURL host = some u)
    (hnofast : ¬(fsExists w.fs (modFilePath u mod) = true ∧
      version = lockedVersionOf lockFile host version))
    (hnet : net (host ++ version ++ mod) = some resp)
    (hstatus : resp.status = 200)
    (hlen : resp.contentLength = none ∨
      parseIntJS (resp.contentLength.getD "0") = none) :
    writeLinkFile parseURL net host version lockFile w mod = .ok
      { fs := writeFile (mkdirRec w.fs (modFilePath u mod).dropLast)
          (modFilePath u mod) (buildLink resp.url resp.body),
        lock := w.lock, fetches := w.fetches + 1,
        bodyReads := w.bodyReads + 1, lockWrites := w.lockWrites } ∧
    fsRead (writeFile (mkdirRec w.fs (modFilePath u mod).dropLast)
        (modFilePath u mod) (buildLink resp.url resp.body))
      (modFilePath u mod) = some (buildLink resp.url resp.body) := by
  have hcond : ¬(fsExists w.fs (modFilePath u mod) &&
      (version == lockedVersionOf lockFile host version)) = true := by
    simpa [Bool.and_eq_true, beq_iff_eq] using hnofast
  have hgt : jsGt (parseIntJS (resp.contentLength.getD "0")) 10000000 = false := by
    rcases hlen with h | h
    · rw [h]
      rfl
    · rw [h]
      rfl
  constructor
  · simp only [writeLinkFile, hu, if_neg hcond, hnet, hstatus, ne_eq,
      not_true_eq_false, if_false, hgt, Bool.false_eq_true]
  · simp only [fsRead, writeFile, List.lookup]
    simp

/-- Witness for C10: the concrete response of host `a` carries no
content-length header; the shim is written and readable. -/
theorem spec_c10_witness :
    writeLinkFile demoParseURL demoNetC1 "https://a/" "v1" (some [])
      demoW0 "x.ts" = .ok
      { fs := writeFile (mkdirRec demoW0.fs
            (modFilePath ⟨"https:", "a", "/"⟩ "x.ts").dropLast)
          (modFilePath ⟨"https:", "a", "/"⟩ "x.ts")
          (buildLink "https://a/x.ts" ""),
        lock := some [], fetches := 1, bodyReads := 1, lockWrites := 0 } ∧
    fsRead (writeFile (mkdirRec demoW0.fs
          (modFilePath ⟨"https:", "a", "/"⟩ "x.ts").dropLast)
        (modFilePath ⟨"https:", "a", "/"⟩ "x.ts")
        (buildLink "https://a/x.ts" ""))
      (modFilePath ⟨"https:", "a", "/"⟩ "x.ts") =
      some (buildLink "https://a/x.ts" "") := by
  have h := spec_c10 demoParseURL demoNetC1 "https://a/" "v1" (some []) demoW0
    "x.ts" ⟨"https:", "a", "/"⟩ demoRespA rfl (by decide) rfl rfl (Or.inl rfl)
  exact h

/-! Lemmas towards the idempotence claim C4. -/

/-- Creating directories does not change which files exist. -/
lemma fsExists_mkdirRec (fs : FS) (d q : List String) :
    fsExists (mkdirRec fs d) q = fsExists fs q := rfl

/-- A written file exists. -/
lemma fsExists_writeFile_self (fs : FS) (p : List String) (c : String) :
    fsExists (writeFile fs p c) p = true := by
  simp [fsExists, writeFile]

/-- Writing a file keeps every existing file in existence. -/
lemma fsExists_writeFile_mono (fs : FS) (p : List String) (c : String)
    (q : List String) (h : fsExists fs q = true) :
    fsExists (writeFile fs p c) q = true := by
  by_cases hq : q = p
  · subst hq
    exact fsExists_writeFile_self fs q c
  · simp only [fsExists, writeFile, List.any_cons, List.any_filter,
      Bool.or_eq_true, beq_iff_eq] at *
    rcases List.any_eq_true.mp h with ⟨e, he, heq⟩
    refine Or.inr (List.any_eq_true.mpr ⟨e, he, ?_⟩)
    have : e.1 = q := by simpa using heq
    simp [this, hq]

/-- The cleanup walk does not change which files exist. -/
lemma fsExists_cleanupWalk (fs : FS) (d q : List String) :
    fsExists (cleanupWalk fs d) q = fsExists fs q := by
  simp [fsExists, cleanupWalk, cleanupWalkRev_files]

/-- A removed file no longer exists. -/
lemma fsExists_removeFile_self (fs : FS) (p : List String) :
    fsExists (removeFile fs p) p = false := by
  simp only [fsExists, removeFile]
  rw [List.any_eq_false]
  intro e he
  simp only [List.mem_filter] at he
  simpa using he.2

/-- Removing a file adds no files. -/
lemma fsExists_removeFile_pres (fs : FS) (p q : List String)
    (h : fsExists fs q = false) : fsExists (removeFile fs p) q = false := by
  simp only [fsExists, removeFile] at *
  rw [List.any_eq_false] at h ⊢
  intro e he
  exact h e (List.mem_filter.mp he).1

/-- A path just processed by `deleteOne` does not exist afterwards. -/
lemma fsExists_deleteOne_self (fs : FS) (p : List String) :
    fsExists (deleteOne fs p) p = false := by
  unfold deleteOne
  by_cases h : fsExists fs p = true
  · rw [if_pos h, fsExists_cleanupWalk]
    exact fsExists_removeFile_self fs p
  · rw [if_neg h]
    exact Bool.not_eq_true _ ▸ h

/-- `deleteOne` adds no files. -/
lemma fsExists_deleteOne_pres (fs : FS) (p q : List String)
    (h : fsExists fs q = false) : fsExists (deleteOne fs p) q = false := by
  unfold deleteOne
  by_cases hex : fsExists fs p = true
  · rw [if_pos hex, fsExists_cleanupWalk]
    exact fsExists_removeFile_pres fs p q h
  · rw [if_neg hex]
    exact h

/-- The deletion fold adds no files. -/
lemma fsExists_foldl_deleteOne_pres : ∀ (ps : List (List String)) (fs : FS)
    (p : List String), fsExists fs p = false →
    fsExists (ps.foldl deleteOne fs) p = false := by
  intro ps
  induction ps with
  | nil => intro fs p h; exact h
  | cons q qs ih =>
    intro fs p h
    rw [List.foldl_cons]
    exact ih (deleteOne fs q) p (fsExists_deleteOne_pres fs q p h)

/-- Every path in the processed list is absent after the deletion fold. -/
lemma fsExists_foldl_deleteOne : ∀ (ps : List (List String)) (fs : FS),
    ∀ p ∈ ps, fsExists (ps.foldl deleteOne fs) p = false := by
  intro ps
  induction ps with
  | nil => intro fs p hp; cases hp
  | cons q qs ih =>
    intro fs p hp
    rcases List.mem_cons.mp hp with h | h
    · subst h
      rw [List.foldl_cons]
      exact fsExists_foldl_deleteOne_pres qs (deleteOne fs p) p
        (fsExists_deleteOne_self fs p)
    · rw [List.foldl_cons]
      exact ih (deleteOne fs q) p h

/-- Deleting already-absent paths changes nothing. -/
lemma foldl_deleteOne_noop : ∀ (ps : List (List String)) (fs : FS),
    (∀ p ∈ ps, fsExists fs p = false) → ps.foldl deleteOne fs = fs := by
  intro ps
  induction ps with
  | nil => intro fs _; rfl
  | cons q qs ih =>
    intro fs h
    rw [List.foldl_cons]
    have hq : deleteOne fs q = fs := by
      unfold deleteOne
      rw [if_neg (by simp [h q (by simp)])]
    rw [hq]
    exact ih fs (fun p hp => h p (by simp [hp]))

/-- A successful Link Writer invocation preserves existing files, leaves its
own target file in existence, and never touches the lock file or its write
counter. -/
lemma writeLinkFile_ok_facts (parseURL : URLParser) (net : Network)
    (host version : String) (lockFile : Option Modules) (w : World) (m : String)
    (w2 : World) (h : writeLinkFile parseURL net host version lockFile w m = .ok w2) :
    (∀ q, fsExists w.fs q = true → fsExists w2.fs q = true) ∧
    (∃ u, parseURL host = some u ∧ fsExists w2.fs (modFilePath u m) = true) ∧
    w2.lock = w.lock ∧ w2.lockWrites = w.lockWrites := by
  cases hu : parseURL host with
  | none =>
    simp only [writeLinkFile, hu] at h
    exact Except.noConfusion h
  | some u =>
    by_cases hfast : (fsExists w.fs (modFilePath u m) &&
        (version == lockedVersionOf lockFile host version)) = true
    · rw [show w2 = w from by
        have := h
        simp only [writeLinkFile, hu, hfast, if_true] at this
        exact (Except.ok.injEq .. ▸ this).symm]
      exact ⟨fun q hq => hq, ⟨u, rfl, (Bool.and_eq_true .. ▸ hfast).1⟩, rfl, rfl⟩
    · simp only [writeLinkFile, hu, hfast, Bool.false_eq_true, if_false] at h
      cases hnet : net (host ++ version ++ m) with
      | none => rw [hnet] at h; cases h
      | some resp =>
        rw [hnet] at h
        by_cases hs : resp.status = 200
        · simp only [hs, ne_eq, not_true_eq_false, if_false] at h
          by_cases hgt : jsGt (parseIntJS (resp.contentLength.getD "0"))
              10000000 = true
          · rw [if_pos hgt] at h
            cases h
          · rw [if_neg hgt] at h
            have hw2 := (Except.ok.injEq .. ▸ h)
            rw [← hw2]
            refine ⟨?_, ⟨u, rfl, ?_⟩, rfl, rfl⟩
            · intro q hq
              exact fsExists_writeFile_mono _ _ _ q
                ((fsExists_mkdirRec w.fs _ q).symm ▸ hq)
            · exact fsExists_writeFile_self _ _ _
        · simp only [hs, ne_eq, not_false_eq_true, if_true] at h
          cases h

/-- The Link Writer fast path: an existing target with matching versions
returns at once, changing nothing. -/
lemma writeLinkFile_fastpath (parseURL : URLParser) (net : Network)
    (host version : String) (lockFile : Option Modules) (w : World) (m : String)
    (u : URLParts) (hu : parseURL host = some u)
    (hex : fsExists w.fs (modFilePath u m) = true)
    (hver : version = lockedVersionOf lockFile host version) :
    writeLinkFile parseURL net host version lockFile w m = .ok w := by
  have hfast : (fsExists w.fs (modFilePath u m) &&
      (version == lockedVersionOf lockFile host version)) = true := by
    rw [hex, Bool.true_and, beq_iff_eq]
    exact hver
  simp only [writeLinkFile, hu, hfast, if_true]

/-- Facts about a successful per-host link fan-out. -/
lemma linkAll_ok_facts (parseURL : URLParser) (net : Network)
    (host version : String) (lockFile : Option Modules) :
    ∀ (ms : List String) (w w2 : World),
    linkAll parseURL net host version lockFile w ms = .ok w2 →
    (∀ q, fsExists w.fs q = true → fsExists w2.fs q = true) ∧
    (∀ m ∈ ms, ∃ u, parseURL host = some u ∧
      fsExists w2.fs (modFilePath u m) = true) ∧
    w2.lock = w.lock ∧ w2.lockWrites = w.lockWrites := by
  intro ms
  induction ms with
  | nil =>
    intro w w2 h
    cases h
    exact ⟨fun q hq => hq, by simp, rfl, rfl⟩
  | cons m ms ih =>
    intro w w2 h
    simp only [linkAll] at h
    cases hw1 : writeLinkFile parseURL net host version lockFile w m with
    | error ew => rw [hw1] at h; cases h
    | ok w1 =>
      rw [hw1] at h
      obtain ⟨hmono1, ⟨u, hu, hself⟩, hlock1, hlw1⟩ :=
        writeLinkFile_ok_facts parseURL net host version lockFile w m w1 hw1
      obtain ⟨hmono2, hall2, hlock2, hlw2⟩ := ih w1 w2 h
      refine ⟨fun q hq => hmono2 q (hmono1 q hq), ?_, hlock2.trans hlock1,
        hlw2.trans hlw1⟩
      intro m' hm'
      rcases List.mem_cons.mp hm' with heq | hmem
      · subst heq
        exact ⟨u, hu, hmono2 _ hself⟩
      · exact hall2 m' hmem

/-- The fan-out over a host whose every module hits the fast path returns the
world unchanged. -/
lemma linkAll_fastpath (parseURL : URLParser) (net : Network)
    (host version : String) (lockFile : Option Modules) :
    ∀ (ms : List String) (w : World),
    (∀ m ∈ ms, ∃ u, parseURL host = some u ∧
      fsExists w.fs (modFilePath u m) = true ∧
      version = lockedVersionOf lockFile host version) →
    linkAll parseURL net host version lockFile w ms = .ok w := by
  intro ms
  induction ms with
  | nil => intro w _; rfl
  | cons m ms ih =>
    intro w h
    obtain ⟨u, hu, hex, hver⟩ := h m (by simp)
    simp only [linkAll,
      writeLinkFile_fastpath parseURL net host version lockFile w m u hu hex hver]
    exact ih w (fun m' hm' => h m' (by simp [hm']))

/-- Facts about a successful host loop: files only accumulate, every manifest
module's target file exists at the end, and after a non-empty loop the lock
holds the full manifest. -/
lemma hostsLoop_ok_facts (parseURL : URLParser) (net : Network)
    (modules : Modules) (lockFile : Option Modules) :
    ∀ (hosts : List (String × Module)) (w w2 : World),
    hostsLoop parseURL net modules lockFile w hosts = .ok w2 →
    (∀ q, fsExists w.fs q = true → fsExists w2.fs q = true) ∧
    (∀ hv ∈ hosts, ∀ m ∈ hv.2.modules, ∃ u, parseURL hv.1 = some u ∧
      fsExists w2.fs (modFilePath u m) = true) ∧
    (hosts = [] → w2 = w) ∧ (hosts ≠ [] → w2.lock = some modules) := by
  intro hosts
  induction hosts with
  | nil =>
    intro w w2 h
    cases h
    exact ⟨fun q hq => hq, by simp, fun _ => rfl, fun hne => absurd rfl hne⟩
  | cons hv rest ih =>
    intro w w2 h
    obtain ⟨host, v⟩ := hv
    simp only [hostsLoop] at h
    cases hl : linkAll parseURL net host v.version lockFile w v.modules with
    | error ew =>
      rw [hl] at h
      cases h
    | ok w1 =>
      rw [hl] at h
      obtain ⟨hmono1, hall1, _, _⟩ :=
        linkAll_ok_facts parseURL net host v.version lockFile v.modules w w1 hl
      obtain ⟨hmono2, hall2, hnil2, hcons2⟩ := ih (generateLockFile modules w1) w2 h
      have hgfs : (generateLockFile modules w1).fs = w1.fs := rfl
      refine ⟨?_, ?_, ?_, ?_⟩
      · intro q hq
        exact hmono2 q ((hgfs.symm ▸ hmono1 q hq : fsExists w1.fs q = true))
      · intro hv' hmem m hm
        rcases List.mem_cons.mp hmem with heq | hmem'
        · subst heq
          obtain ⟨u, hu, hex⟩ := hall1 m hm
          exact ⟨u, hu, hmono2 _ (hgfs.symm ▸ hex)⟩
        · exact hall2 hv' hmem' m hm
      · intro hcon
        cases hcon
      · intro _
        cases hrest : rest with
        | nil =>
          rw [hnil2 hrest]
          rfl
        | cons r rs =>
          exact hcons2 (by simp [hrest])

/-- A host loop all of whose modules hit the fast path succeeds without
touching the file tree or the effect counters; when non-empty it ends with
the manifest in the lock. -/
lemma hostsLoop_fastpath (parseURL : URLParser) (net : Network)
    (modules : Modules) (lockFile : Option Modules) :
    ∀ (hosts : List (String × Module)) (w : World),
    (∀ hv ∈ hosts, ∀ m ∈ hv.2.modules, ∃ u, parseURL hv.1 = some u ∧
      fsExists w.fs (modFilePath u m) = true ∧
      hv.2.version = lockedVersionOf lockFile hv.1 hv.2.version) →
    ∃ w2, hostsLoop parseURL net modules lockFile w hosts = .ok w2 ∧
      w2.fs = w.fs ∧ w2.fetches = w.fetches ∧ w2.bodyReads = w.bodyReads ∧
      (hosts = [] → w2 = w) ∧ (hosts ≠ [] → w2.lock = some modules) := by
  intro hosts
  induction hosts with
  | nil =>
    intro w _
    exact ⟨w, rfl, rfl, rfl, rfl, fun _ => rfl, fun hne => absurd rfl hne⟩
  | cons hv rest ih =>
    intro w h
    obtain ⟨host, v⟩ := hv
    have hl : linkAll parseURL net host v.version lockFile w v.modules = .ok w :=
      linkAll_fastpath parseURL net host v.version lockFile v.modules w
        (fun m hm => h (host, v) (by simp) m hm)
    obtain ⟨w2, hrest, hfs, hfetch, hbody, hnil, hcons⟩ :=
      ih (generateLockFile modules w) (fun hv' hmem m hm => h hv' (by simp [hmem]) m hm)
    refine ⟨w2, ?_, hfs, hfetch, hbody, fun hcon => absurd hcon (by simp), ?_⟩
    · simp only [hostsLoop, hl, hrest]
    · intro _
      cases hrst : rest with
      | nil =>
        rw [hnil hrst]
        rfl
      | cons r rs =>
        exact hcons (by simp [hrst])

/-- When the lock records exactly the manifest's version for a host, the
effective version equals the desired one (also when it is the empty,
falsy, string). -/
lemma lockedVersionOf_lookup (l : Modules) (host : String) (m : Module)
    (h : l.lookup host = some m) :
    lockedVersionOf (some l) host m.version = m.version := by
  simp only [lockedVersionOf, h]
  split
  · rfl
  · rfl

/-- Pruning against a lock state whose entries all appear in the manifest
(with duplicate-free manifest keys) marks nothing. -/
lemma removedFiles_sub_nil (parseURL : URLParser) (M : Modules)
    (hnodup : (M.map Prod.fst).Nodup)
    (hparse : ∀ k ∈ M.map Prod.fst, (parseURL k).isSome) :
    ∀ lockpart : Modules, (∀ e ∈ lockpart, e ∈ M) →
    removedFiles parseURL M lockpart = .ok [] := by
  intro lockpart
  induction lockpart with
  | nil => intro _; rfl
  | cons e rest ih =>
    intro hsub
    obtain ⟨k, v⟩ := e
    have hkM : (k, v) ∈ M := hsub (k, v) (by simp)
    obtain ⟨u, hu⟩ := Option.isSome_iff_exists.mp
      (hparse k (List.mem_map.mpr ⟨(k, v), hkM, rfl⟩))
    have hlook : M.lookup k = some v := lookup_eq_of_mem_nodup M hnodup k v hkM
    have hfilter : (jsSetDedup v.modules).filter
        (fun i => !v.modules.contains i) = [] := by
      rw [List.filter_eq_nil_iff]
      intro i hi
      have hmem : i ∈ v.modules := (mem_jsSetDedup v.modules i).mp hi
      simp [hmem]
    simp only [removedFiles, hu, hlook, hfilter,
      ih (fun e' he' => hsub e' (by simp [he'])), List.map_nil, List.nil_append]

/-- Claim C4: running reconciliation a second time with the same manifest
(whose host keys are distinct, parseable URLs) on the world a successful
first run produced performs zero fetches and zero body reads — every (host,
module) pair hits the fast path — and leaves the lock-file content and the
file tree byte-identical. -/
theorem spec_c4 (parseURL : URLParser) (net : Network) (M : Modules)
    (w w1 : World)
    (hnodup : (M.map Prod.fst).Nodup)
    (hparse : ∀ k ∈ M.map Prod.fst, (parseURL k).isSome)
    (h1 : ensure parseURL net M w = .ok w1) :
    ∃ w2, ensure parseURL net M w1 = .ok w2 ∧
      w2.fetches = w1.fetches ∧ w2.bodyReads = w1.bodyReads ∧
      w2.lock = w1.lock ∧ w2.fs = w1.fs := by
  cases hwl : w.lock with
  | none =>
    simp only [ensure, deleteRemovedFilesRun, hwl] at h1
    exact Except.noConfusion h1
  | some L =>
    cases hrf : removedFiles parseURL M L with
    | error e =>
      simp only [ensure, deleteRemovedFilesRun, hwl, hrf] at h1
      exact Except.noConfusion h1
    | ok ps =>
      simp only [ensure, deleteRemovedFilesRun, hwl, hrf] at h1
      obtain ⟨hmono, hfiles, hnil, hcons⟩ :=
        hostsLoop_ok_facts parseURL net M (some L) M _ w1 h1
      cases hM : M with
      | nil =>
        subst hM
        have hw1 := hnil rfl
        have hl1 : w1.lock = some L := by rw [hw1]
        have habs : ∀ p ∈ ps, fsExists w1.fs p = false := by
          rw [hw1]
          exact fun p hp => fsExists_foldl_deleteOne ps w.fs p hp
        have hfold : ps.foldl deleteOne w1.fs = w1.fs :=
          foldl_deleteOne_noop ps w1.fs habs
        refine ⟨w1, ?_, rfl, rfl, rfl, rfl⟩
        simp only [ensure, deleteRemovedFilesRun, hl1, hrf, hfold, hostsLoop]
        exact congrArg Except.ok (by rw [hw1])
      | cons e rest =>
        subst hM
        have hlock1 : w1.lock = some (e :: rest) := hcons (by simp)
        have hrf2 : removedFiles parseURL (e :: rest) (e :: rest) = .ok [] :=
          removedFiles_sub_nil parseURL (e :: rest) hnodup hparse (e :: rest)
            (fun e' he' => he')
        have hfast : ∀ hv ∈ (e :: rest), ∀ m ∈ hv.2.modules,
            ∃ u, parseURL hv.1 = some u ∧
            fsExists w1.fs (modFilePath u m) = true ∧
            hv.2.version = lockedVersionOf (some (e :: rest)) hv.1 hv.2.version := by
          intro hv hmem m hm
          obtain ⟨u, hu, hex⟩ := hfiles hv hmem m hm
          refine ⟨u, hu, hex, ?_⟩
          have hl : (e :: rest).lookup hv.1 = some hv.2 :=
            lookup_eq_of_mem_nodup _ hnodup hv.1 hv.2 (by rw [Prod.mk.eta]; exact hmem)
          exact (lockedVersionOf_lookup (e :: rest) hv.1 hv.2 hl).symm
        obtain ⟨w2, hrun2, hfs2, hfetch2, hbody2, _, hlock2⟩ :=
          hostsLoop_fastpath parseURL net (e :: rest) (some (e :: rest))
            (e :: rest)
            { fs := w1.fs, lock := some (e :: rest), fetches := w1.fetches,
              bodyReads := w1.bodyReads, lockWrites := w1.lockWrites } hfast
        refine ⟨w2, ?_, hfetch2, hbody2, ?_, hfs2⟩
        · simp only [ensure, deleteRemovedFilesRun, hlock1, hrf2, List.foldl_nil]
          exact hrun2
        · rw [hlock2 (by simp), hlock1]

/-- Witness for C4: on the concrete two-host manifest, the second run over
the world produced by a successful first run succeeds with identical fetch
count and identical lock content. -/
theorem spec_c4_witness :
    ∃ w1 w2, ensure demoParseURL demoNetAB demoManifestAB demoW0 = .ok w1 ∧
      ensure demoParseURL demoNetAB demoManifestAB w1 = .ok w2 ∧
      w2.fetches = w1.fetches ∧ w2.lock = w1.lock := by
  obtain ⟨w2, h2, hf, _, hl, _⟩ :=
    spec_c4 demoParseURL demoNetAB demoManifestAB demoW0 _ (by decide) (by decide) rfl
  exact ⟨_, w2, rfl, h2, hf, hl⟩

end Dink
